import Mathlib

/-!
Verification development for the vulnify-cli detection-and-parsing subsystem
(`src/services/parser.ts`, `src/services/detector.ts`).

Conventions of the shallow embedding:
* JavaScript strings are modelled as `List Char`; `toL` converts a Lean
  string literal.
* JS regular-expression behaviour is embedded operationally: `\s` is the
  JS whitespace class (`isWsJs`), `.` excludes line terminators
  (`isLineTerm`), `$` without the `m` flag matches only at the end of the
  input, and `String.prototype.replace` with a non-global regex removes
  the leftmost match only.
* Confidence scores are exact decimals; they are represented in
  hundredths as natural numbers (0.9 ↦ 90), and comparator differences in
  `Int`, so every value computed by the detector is exact.
* Fallible TS code (`throw`) is modelled with `Except`.
-/

namespace Vulnify

def toL (s : String) : List Char := s.toList

/-- Whitespace class of JS regular expressions (`\s`) and of
`String.prototype.trim`: space, tab, line terminators, and the Unicode
space characters. -/
def isWsJs (c : Char) : Bool :=
  c = ' ' || c = '\t' || c = '\n' || c = '\x0b' || c = '\x0c' || c = '\r' ||
  c = '\u00a0' || c = '\u1680' || ('\u2000' ≤ c && c ≤ '\u200a') ||
  c = '\u2028' || c = '\u2029' || c = '\u202f' || c = '\u205f' ||
  c = '\u3000' || c = '\ufeff'

/-- Line terminators of JS: the characters that `.` does not match in a
regex without the `s` flag. -/
def isLineTerm (c : Char) : Bool :=
  c = '\n' || c = '\r' || c = '\u2028' || c = '\u2029'

theorem isWsJs_of_isLineTerm {c : Char} (h : isLineTerm c = true) :
    isWsJs c = true := by
  simp only [isLineTerm, Bool.or_eq_true, decide_eq_true_eq] at h
  simp only [isWsJs, Bool.or_eq_true, Bool.and_eq_true, decide_eq_true_eq]
  tauto

/-- Left trim: drop leading JS whitespace. -/
def ltrim (l : List Char) : List Char := l.dropWhile isWsJs

/-- Right trim: drop trailing JS whitespace. -/
def rtrim (l : List Char) : List Char := (l.reverse.dropWhile isWsJs).reverse

/-- Embedding of `String.prototype.trim`. -/
def trimJs (l : List Char) : List Char := rtrim (ltrim l)

/-- Operator characters stripped by `cleanVersion`'s first regex
`/^[\^~>=<]+/` (note: `!` is not in the class). -/
def isOpChar (c : Char) : Bool :=
  c = '^' || c = '~' || c = '>' || c = '=' || c = '<'

/-- Whether the regex `\s*\|\|.*$` (no `m` flag, dot excludes line
terminators) matches at the start of `r`: a run of whitespace, then
`||`, then only non-line-terminator characters up to the end of the
input. -/
def matchAt (r : List Char) : Bool :=
  match r.dropWhile isWsJs with
  | '|' :: '|' :: rest => rest.all (fun c => !(isLineTerm c))
  | _ => false

/-- Removal of the leftmost match of `\s*\|\|.*$`: keep characters until
a position where the pattern matches; the match necessarily extends to
the end of the input, so everything from there is dropped. -/
def stripOrAux : List Char → List Char
  | [] => []
  | c :: rest => if matchAt (c :: rest) then [] else c :: stripOrAux rest

/-- Embedding of `DependencyParser.cleanVersion` (parser.ts:329):
`version.replace(/^[\^~>=<]+/, '').replace(/\s*\|\|.*$/, '').trim()`. -/
def cleanVersion (l : List Char) : List Char :=
  trimJs (stripOrAux (l.dropWhile isOpChar))

/-- Truncation at the first occurrence of `||`, the plain reading of
"strip any `||`-delimited alternative together with all trailing
content". -/
def cutOr : List Char → List Char
  | [] => []
  | [c] => [c]
  | c :: d :: rest => if c = '|' ∧ d = '|' then [] else c :: cutOr (d :: rest)

/-- Version cleaning as the spec describes it, restricted to the
operator set `^ ~ > = <` actually used by the code: strip the leading
operator run, cut at the first `||` (dropping it and everything after),
then trim. On line-terminator-free inputs this agrees with
`cleanVersion`. -/
def specCleanLinear (l : List Char) : List Char :=
  trimJs (cutOr (l.dropWhile isOpChar))

/-! Lemmas about trimming and the `||` stripping. -/

theorem dropWhile_append_of_all {p : Char → Bool} :
    ∀ {w t : List Char}, (∀ c ∈ w, p c = true) →
      (w ++ t).dropWhile p = t.dropWhile p := by
  intro w
  induction w with
  | nil => intro t _; rfl
  | cons c w' ih =>
    intro t hw
    have hc : p c = true := hw c (by simp)
    simp only [List.cons_append, List.dropWhile_cons, hc, if_true]
    exact ih fun x hx => hw x (by simp [hx])

theorem dropWhile_eq_self_of_all {p : Char → Bool} :
    ∀ {l : List Char}, (∀ c ∈ l, p c = false) → l.dropWhile p = l := by
  intro l
  induction l with
  | nil => intro _; rfl
  | cons c l' ih =>
    intro hl
    have hc : p c = false := hl c (by simp)
    simp [List.dropWhile_cons, hc]

theorem rtrim_append_of_ws {a w : List Char}
    (hw : ∀ c ∈ w, isWsJs c = true) : rtrim (a ++ w) = rtrim a := by
  unfold rtrim
  rw [List.reverse_append,
    dropWhile_append_of_all (fun c hc => hw c (List.mem_reverse.mp hc))]

theorem trimJs_append_of_ws {w : List Char}
    (hw : ∀ c ∈ w, isWsJs c = true) :
    ∀ a : List Char, trimJs (a ++ w) = trimJs a := by
  intro a
  induction a with
  | nil =>
    show trimJs ([] ++ w) = trimJs []
    rw [List.nil_append]
    have h1 : w.dropWhile isWsJs = ([] : List Char).dropWhile isWsJs := by
      have h2 := @dropWhile_append_of_all isWsJs w ([] : List Char) hw
      rwa [List.append_nil] at h2
    unfold trimJs ltrim
    rw [h1]
  | cons c a' ih =>
    unfold trimJs ltrim
    by_cases hc : isWsJs c = true
    · simp only [List.cons_append, List.dropWhile_cons, hc, if_true]
      exact ih
    · have hc' : isWsJs c = false := by simpa using hc
      simp only [List.cons_append, List.dropWhile_cons, hc',
        Bool.false_eq_true, if_false]
      exact @rtrim_append_of_ws (c :: a') w hw

theorem matchAt_cons_of_ws {c : Char} {l : List Char}
    (hc : isWsJs c = true) : matchAt (c :: l) = matchAt l := by
  unfold matchAt
  rw [List.dropWhile_cons, if_pos hc]

theorem matchAt_eq_true_of_bars {rest : List Char}
    (hr : ∀ x ∈ rest, isLineTerm x = false) :
    matchAt ('|' :: '|' :: rest) = true := by
  unfold matchAt
  rw [List.dropWhile_cons, if_neg (by decide)]
  simp only [List.all_eq_true, Bool.not_eq_true']
  exact hr

theorem matchAt_cons_cons_of_not_ws {c d : Char} {rest : List Char}
    (hc : isWsJs c = false) (hm : matchAt (c :: d :: rest) = true) :
    c = '|' ∧ d = '|' := by
  unfold matchAt at hm
  rw [List.dropWhile_cons, if_neg (by simp [hc])] at hm
  split at hm
  next heq => exact ⟨(List.cons.injEq _ _ _ _ ▸ heq).1, by
    have := (List.cons.injEq _ _ _ _ ▸ heq).2
    exact ((List.cons.injEq _ _ _ _ ▸ this).1)⟩
  next => exact absurd hm (by simp)

theorem matchAt_singleton (c : Char) : matchAt [c] = false := by
  unfold matchAt
  by_cases hc : isWsJs c = true
  · rw [List.dropWhile_cons, if_pos hc]; rfl
  · rw [List.dropWhile_cons, if_neg (by simp [hc])]
    split
    next heq => simp at heq
    next => rfl

/-- On inputs free of line terminators, the truncation performed by the
regex `\s*\|\|.*$` differs from the plain cut at the first `||` only by
a trailing run of whitespace. -/
theorem cutOr_eq_stripOrAux_append :
    ∀ l : List Char, (∀ c ∈ l, isLineTerm c = false) →
      ∃ w, (∀ c ∈ w, isWsJs c = true) ∧ cutOr l = stripOrAux l ++ w := by
  intro l
  induction l with
  | nil => intro _; exact ⟨[], by simp, rfl⟩
  | cons c rest ih =>
    intro h
    have hrest : ∀ x ∈ rest, isLineTerm x = false :=
      fun x hx => h x (by simp [hx])
    match rest, ih with
    | [], _ =>
      refine ⟨[], by simp, ?_⟩
      show cutOr [c] = stripOrAux [c] ++ []
      unfold cutOr stripOrAux
      rw [matchAt_singleton c, if_neg (by simp)]
      rfl
    | d :: rest', ih =>
      obtain ⟨w, hw, hcut⟩ := ih hrest
      by_cases hm : matchAt (c :: d :: rest') = true
      · by_cases hws : isWsJs c = true
        · -- the whitespace run before `||` absorbs `c`
          have hm' : matchAt (d :: rest') = true := by
            rw [matchAt_cons_of_ws hws] at hm; exact hm
          have hstrip : stripOrAux (d :: rest') = [] := by
            unfold stripOrAux; rw [if_pos hm']
          rw [hstrip] at hcut
          have hcbar : c ≠ '|' := by
            intro hceq; subst hceq; simp [isWsJs] at hws
          refine ⟨c :: w, ?_, ?_⟩
          · intro x hx
            rcases List.mem_cons.mp hx with hx | hx
            · subst hx; exact hws
            · exact hw x hx
          · unfold stripOrAux
            rw [if_pos hm]
            show cutOr (c :: d :: rest') = c :: w
            unfold cutOr
            rw [if_neg (by intro hcd; exact hcbar hcd.1)]
            rw [hcut]
            rfl
        · -- no whitespace before: the list must start with `||`
          have hws' : isWsJs c = false := by simpa using hws
          have hbars := matchAt_cons_cons_of_not_ws hws' hm
          refine ⟨[], by simp, ?_⟩
          unfold stripOrAux cutOr
          rw [if_pos hm, if_pos hbars]
          rfl
      · -- no match here: both sides keep `c`
        have hnotbars : ¬(c = '|' ∧ d = '|') := by
          intro hcd
          obtain ⟨hc1, hd1⟩ := hcd
          subst hc1; subst hd1
          exact hm (matchAt_eq_true_of_bars
            (fun x hx => hrest x (by simp [hx])))
        refine ⟨w, hw, ?_⟩
        unfold stripOrAux cutOr
        rw [if_neg hm, if_neg hnotbars, hcut]
        rfl

/-! Further structural lemmas about `cutOr` and whitespace-free inputs. -/

theorem trimJs_eq_self {l : List Char}
    (h : ∀ c ∈ l, isWsJs c = false) : trimJs l = l := by
  unfold trimJs ltrim rtrim
  rw [dropWhile_eq_self_of_all h,
    dropWhile_eq_self_of_all (fun c hc => h c (List.mem_reverse.mp hc)),
    List.reverse_reverse]

theorem cutOr_nil : cutOr [] = [] := rfl

theorem cutOr_single (c : Char) : cutOr [c] = [c] := rfl

theorem cutOr_cons_cons (c d : Char) (rest : List Char) :
    cutOr (c :: d :: rest) =
      if c = '|' ∧ d = '|' then [] else c :: cutOr (d :: rest) := rfl

theorem stripOrAux_cons (c : Char) (rest : List Char) :
    stripOrAux (c :: rest) =
      if matchAt (c :: rest) then [] else c :: stripOrAux rest := rfl

theorem stripOrAux_eq_cutOr :
    ∀ l : List Char, (∀ c ∈ l, isWsJs c = false) → stripOrAux l = cutOr l := by
  intro l
  induction l with
  | nil => intro _; rfl
  | cons c rest ih =>
    intro h
    have hc : isWsJs c = false := h c (by simp)
    have hrest : ∀ x ∈ rest, isWsJs x = false := fun x hx => h x (by simp [hx])
    match rest, ih with
    | [], _ =>
      rw [stripOrAux_cons, matchAt_singleton c, if_neg (by simp), cutOr_single]
      rfl
    | d :: rest', ih =>
      by_cases hcd : c = '|' ∧ d = '|'
      · have hm : matchAt (c :: d :: rest') = true := by
          obtain ⟨h1, h2⟩ := hcd; subst h1; subst h2
          refine matchAt_eq_true_of_bars (fun x hx => ?_)
          have hx' := hrest x (by simp [hx])
          cases hxl : isLineTerm x with
          | false => rfl
          | true =>
            rw [isWsJs_of_isLineTerm hxl] at hx'
            exact absurd hx' (by simp)
        rw [stripOrAux_cons, if_pos hm, cutOr_cons_cons, if_pos hcd]
      · have hm : ¬ matchAt (c :: d :: rest') = true := by
          intro hm
          exact hcd (matchAt_cons_cons_of_not_ws hc hm)
        rw [stripOrAux_cons, if_neg hm, cutOr_cons_cons, if_neg hcd, ih hrest]

theorem mem_of_mem_cutOr : ∀ l : List Char, ∀ c ∈ cutOr l, c ∈ l := by
  intro l
  induction l with
  | nil => intro c hc; exact absurd hc (by simp [cutOr_nil])
  | cons a rest ih =>
    match rest, ih with
    | [], _ => intro c hc; exact hc
    | d :: rest', ih =>
      intro c hc
      by_cases hcd : a = '|' ∧ d = '|'
      · rw [cutOr_cons_cons, if_pos hcd] at hc; exact absurd hc (by simp)
      · rw [cutOr_cons_cons, if_neg hcd] at hc
        rcases List.mem_cons.mp hc with hc | hc
        · simp [hc]
        · exact List.mem_cons_of_mem _ (ih c hc)

theorem cutOr_head (x : Char) (l : List Char) :
    cutOr (x :: l) = [] ∨ ∃ t, cutOr (x :: l) = x :: t := by
  match l with
  | [] => exact Or.inr ⟨[], rfl⟩
  | d :: r =>
    by_cases hcd : x = '|' ∧ d = '|'
    · left; rw [cutOr_cons_cons, if_pos hcd]
    · right; exact ⟨cutOr (d :: r), by rw [cutOr_cons_cons, if_neg hcd]⟩

theorem cutOr_idem : ∀ l : List Char, cutOr (cutOr l) = cutOr l := by
  intro l
  induction l with
  | nil => rfl
  | cons c rest ih =>
    match rest, ih with
    | [], _ => rfl
    | d :: rest', ih =>
      by_cases hcd : c = '|' ∧ d = '|'
      · rw [cutOr_cons_cons, if_pos hcd, cutOr_nil]
      · rw [cutOr_cons_cons c d rest', if_neg hcd]
        rcases cutOr_head d rest' with h0 | ⟨t, ht⟩
        · rw [h0, cutOr_single]
        · rw [ht]
          have ht' : cutOr (d :: t) = d :: t := by
            have h2 := ih; rw [ht] at h2; exact h2
          rw [cutOr_cons_cons, if_neg hcd, ht']

theorem dropWhile_head_shape (p : Char → Bool) :
    ∀ l : List Char, l.dropWhile p = [] ∨
      ∃ c t, l.dropWhile p = c :: t ∧ p c = false := by
  intro l
  induction l with
  | nil => left; rfl
  | cons c l' ih =>
    by_cases hc : p c = true
    · rw [List.dropWhile_cons, if_pos hc]; exact ih
    · right
      exact ⟨c, l', by rw [List.dropWhile_cons, if_neg hc], by simpa using hc⟩

theorem mem_of_mem_dropWhile (p : Char → Bool) :
    ∀ l : List Char, ∀ c ∈ l.dropWhile p, c ∈ l := by
  intro l
  induction l with
  | nil => intro c hc; exact hc
  | cons a l' ih =>
    intro c hc
    by_cases ha : p a = true
    · rw [List.dropWhile_cons, if_pos ha] at hc
      exact List.mem_cons_of_mem _ (ih c hc)
    · rw [List.dropWhile_cons, if_neg ha] at hc
      exact hc

/-! Claim-level results about `cleanVersion`. -/

/-- C2 counterexample. `specCleanClaim` is version cleaning exactly as the
claim words it: strip a leading run of `^ ~ > = < !` (including `!`),
strip any `||`-delimited alternative with everything after it, trim.
The code differs: a leading `!` operator run is not removed, and a `||`
alternative is not stripped when content after it spans another line. -/
def isOpCharClaim (c : Char) : Bool := isOpChar c || c = '!'

/-- Version cleaning as claim C2 words it (with `!` in the operator set
and an unconditional cut at the first `||`). -/
def specCleanClaim (l : List Char) : List Char :=
  trimJs (cutOr (l.dropWhile isOpCharClaim))

/-- C2: the claim is false on the code. At input `"!=1.0"` the claimed
cleaning yields `"1.0"` but `cleanVersion` returns `"!=1.0"` unchanged
(the regex class `[\^~>=<]` has no `!`); at input `"1 || 2\na"` the
claimed cleaning yields `"1"` but `cleanVersion` strips nothing (the
regex `\s*\|\|.*$` cannot match across the line terminator). -/
theorem cleanVersion_claim_counterexample :
    cleanVersion (toL "!=1.0") = toL "!=1.0" ∧
    specCleanClaim (toL "!=1.0") = toL "1.0" ∧
    cleanVersion (toL "!=1.0") ≠ specCleanClaim (toL "!=1.0") ∧
    cleanVersion (toL "1 || 2\na") = toL "1 || 2\na" ∧
    specCleanClaim (toL "1 || 2\na") = toL "1" ∧
    cleanVersion (toL "1 || 2\na") ≠ specCleanClaim (toL "1 || 2\na") := by
  refine ⟨by decide, by decide, by decide, by decide, by decide, by decide⟩

/-- C2 (amended): on every input free of line terminators,
`cleanVersion` strips a leading run of `^ ~ > = <` (not `!`), cuts at
the first `||` together with all content after it, and trims the
surrounding whitespace. -/
theorem cleanVersion_eq_specCleanLinear (l : List Char)
    (h : ∀ c ∈ l, isLineTerm c = false) :
    cleanVersion l = specCleanLinear l := by
  have hsub : ∀ c ∈ l.dropWhile isOpChar, isLineTerm c = false :=
    fun c hc => h c (mem_of_mem_dropWhile isOpChar l c hc)
  obtain ⟨w, hw, hcut⟩ := cutOr_eq_stripOrAux_append _ hsub
  unfold cleanVersion specCleanLinear
  rw [hcut, trimJs_append_of_ws hw]

/-- Witness for the amended C2 at a concrete input. -/
theorem cleanVersion_eq_specCleanLinear_witness :
    cleanVersion (toL "^1.0 || 2.0") = specCleanLinear (toL "^1.0 || 2.0") :=
  cleanVersion_eq_specCleanLinear (toL "^1.0 || 2.0") (by decide)

/-- C3 counterexample: `cleanVersion` is not idempotent. On `" ^1.0"`
the first pass only trims (the leading space shields the `^` from the
start-anchored operator regex), producing `"^1.0"`, and a second pass
then strips the `^`. -/
theorem cleanVersion_idem_counterexample :
    cleanVersion (toL " ^1.0") = toL "^1.0" ∧
    cleanVersion (cleanVersion (toL " ^1.0")) = toL "1.0" ∧
    cleanVersion (cleanVersion (toL " ^1.0")) ≠ cleanVersion (toL " ^1.0") := by
  refine ⟨by decide, by decide, by decide⟩

/-- C3 (amended): `cleanVersion` is idempotent on every input containing
no JS whitespace character. -/
theorem cleanVersion_idem_of_no_ws (l : List Char)
    (h : ∀ c ∈ l, isWsJs c = false) :
    cleanVersion (cleanVersion l) = cleanVersion l := by
  have hy : ∀ c ∈ l.dropWhile isOpChar, isWsJs c = false :=
    fun c hc => h c (mem_of_mem_dropWhile isOpChar l c hc)
  have hz : ∀ c ∈ cutOr (l.dropWhile isOpChar), isWsJs c = false :=
    fun c hc => hy c (mem_of_mem_cutOr _ c hc)
  have h1 : cleanVersion l = cutOr (l.dropWhile isOpChar) := by
    unfold cleanVersion
    rw [stripOrAux_eq_cutOr _ hy, trimJs_eq_self hz]
  rw [h1]
  have hdrop : (cutOr (l.dropWhile isOpChar)).dropWhile isOpChar
      = cutOr (l.dropWhile isOpChar) := by
    rcases dropWhile_head_shape isOpChar l with h0 | ⟨c, t, hct, hcop⟩
    · rw [h0]; rfl
    · rw [hct]
      rcases cutOr_head c t with hz0 | ⟨t', ht'⟩
      · rw [hz0]; rfl
      · rw [ht', List.dropWhile_cons, if_neg (by simp [hcop])]
  unfold cleanVersion
  rw [hdrop, stripOrAux_eq_cutOr _ hz, cutOr_idem, trimJs_eq_self hz]

/-- Witness for the amended C3 at a concrete input. -/
theorem cleanVersion_idem_of_no_ws_witness :
    cleanVersion (cleanVersion (toL "^1.0||2.0")) = cleanVersion (toL "^1.0||2.0") :=
  cleanVersion_idem_of_no_ws (toL "^1.0||2.0") (by decide)

/-! Dependency values and the pypi parser (`DependencyParser.parsePypi`,
parser.ts:93). -/

/-- A parsed dependency: name and cleaned version (types/api.ts). -/
structure Dependency where
  name : List Char
  version : List Char
deriving DecidableEq, Repr

/-- Character class `[a-zA-Z0-9\-_.]` used for pypi package names (and,
with the same members, `[0-9a-zA-Z\-_.]` for versions). -/
def isPyName (c : Char) : Bool :=
  ('a' ≤ c && c ≤ 'z') || ('A' ≤ c && c ≤ 'Z') || ('0' ≤ c && c ≤ '9') ||
  c = '-' || c = '_' || c = '.'

/-- Comparator class `[>=<~!]`. -/
def isPyOp (c : Char) : Bool :=
  c = '>' || c = '=' || c = '<' || c = '~' || c = '!'

/-- Embedding of `String.prototype.toLowerCase` on the ASCII range (the
only characters the pypi name regex can capture). -/
def toLowerJs (c : Char) : Char :=
  if 65 ≤ c.toNat ∧ c.toNat ≤ 90 then Char.ofNat (c.toNat + 32) else c

theorem toNat_ofNat_lower {m : Nat} (h1 : 97 ≤ m) (h2 : m ≤ 122) :
    (Char.ofNat m).toNat = m := by
  interval_cases m <;> decide

theorem toLowerJs_not_upper (c : Char) :
    ¬(65 ≤ (toLowerJs c).toNat ∧ (toLowerJs c).toNat ≤ 90) := by
  unfold toLowerJs
  by_cases h : 65 ≤ c.toNat ∧ c.toNat ≤ 90
  · rw [if_pos h]
    have hv := @toNat_ofNat_lower (c.toNat + 32) (by omega) (by omega)
    omega
  · rw [if_neg h]; exact h

/-- Embedding of `content.split('\n')`. -/
def splitNl : List Char → List (List Char)
  | [] => [[]]
  | c :: rest =>
    match splitNl rest with
    | [] => [[c]]
    | h :: t => if c = '\n' then [] :: h :: t else (c :: h) :: t

/-- The regex `^([a-zA-Z0-9\-_.]+)([>=<~!]+)([0-9a-zA-Z\-_.]+)` on a
trimmed line. The three classes are pairwise disjoint, so the greedy
runs are maximal without backtracking; trailing content is ignored. -/
def pypiMatch (t : List Char) : Option (List Char × List Char) :=
  let n := t.takeWhile isPyName
  if n.isEmpty then none
  else
    let r1 := t.drop n.length
    let op := r1.takeWhile isPyOp
    if op.isEmpty then none
    else
      let r2 := r1.drop op.length
      let v := r2.takeWhile isPyName
      if v.isEmpty then none else some (n, v)

/-- Per-line behaviour of `parsePypi`: trim, skip blank lines and lines
starting with `#` or `-`, then the comparator regex (lowercased name,
cleaned version), else the bare-name regex `^([a-zA-Z0-9\-_.]+)$`
(lowercased name, version `"latest"`). -/
def pypiLine (line : List Char) : List Dependency :=
  match trimJs line with
  | [] => []
  | c :: rest =>
    if c = '#' ∨ c = '-' then []
    else
      match pypiMatch (c :: rest) with
      | some (tok, ver) => [⟨tok.map toLowerJs, cleanVersion ver⟩]
      | none =>
        if (c :: rest).all isPyName then
          [⟨(c :: rest).map toLowerJs, toL "latest"⟩]
        else []

/-- Embedding of `DependencyParser.parsePypi` (parser.ts:93). -/
def parsePypi (content : List Char) : List Dependency :=
  (splitNl content).flatMap pypiLine

/-- C9: every dependency produced by the pypi parser carries the
lowercased form of the token matched on its line (either the
comparator-regex capture or the whole trimmed bare-name line), and no
uppercase ASCII letter ever appears in an output name. -/
theorem parsePypi_names_lowercase :
    (∀ content d, d ∈ parsePypi content →
      ∃ line ∈ splitNl content, d ∈ pypiLine line) ∧
    (∀ line d, d ∈ pypiLine line →
      (∃ tok ver, pypiMatch (trimJs line) = some (tok, ver) ∧
        d.name = tok.map toLowerJs) ∨
      d.name = (trimJs line).map toLowerJs) ∧
    (∀ content d, d ∈ parsePypi content →
      ∀ c ∈ d.name, ¬(65 ≤ c.toNat ∧ c.toNat ≤ 90)) := by
  have hline : ∀ line d, d ∈ pypiLine line →
      (∃ tok ver, pypiMatch (trimJs line) = some (tok, ver) ∧
        d.name = tok.map toLowerJs) ∨
      d.name = (trimJs line).map toLowerJs := by
    intro line d hd
    unfold pypiLine at hd
    split at hd
    · exact absurd hd (by simp)
    · next c rest heq =>
      split at hd
      · exact absurd hd (by simp)
      · split at hd
        · next tok ver hm =>
          left
          refine ⟨tok, ver, by rw [heq]; exact hm, ?_⟩
          have hde : d = ⟨tok.map toLowerJs, cleanVersion ver⟩ := by
            simpa using hd
          rw [hde]
        · split at hd
          · right
            have hde : d = ⟨(c :: rest).map toLowerJs, toL "latest"⟩ := by
              simpa using hd
            rw [hde, heq]
          · exact absurd hd (by simp)
  refine ⟨?_, hline, ?_⟩
  · intro content d hd
    exact List.mem_flatMap.mp hd
  · intro content d hd c hc
    obtain ⟨line, _, hdl⟩ := List.mem_flatMap.mp hd
    rcases hline line d hdl with ⟨tok, ver, _, hname⟩ | hname <;>
    · rw [hname] at hc
      obtain ⟨a, _, ha⟩ := List.mem_map.mp hc
      rw [← ha]
      exact toLowerJs_not_upper a

/-- Witness for C9 at a concrete input containing uppercase letters. -/
theorem parsePypi_names_lowercase_witness :
    ∀ c ∈ (Dependency.mk (toL "flask") (toL "2.0")).name,
      ¬(65 ≤ c.toNat ∧ c.toNat ≤ 90) :=
  parsePypi_names_lowercase.2.2 (toL "Flask>=2.0")
    ⟨toL "flask", toL "2.0"⟩ (by decide)

/-! A JSON value model and parser (embedding of `JSON.parse` as used by
`parseNpm` and `parseComposer`). Objects store fields in insertion
order; a duplicate key overwrites the value in place, as JS property
assignment does. Numbers keep their lexeme. -/

inductive Json where
  | null : Json
  | bool : Bool → Json
  | num : List Char → Json
  | str : String → Json
  | arr : List Json → Json
  | obj : List (String × Json) → Json
deriving Repr

/-- JSON insignificant whitespace (space, tab, newline, carriage
return). -/
def isJsonWs (c : Char) : Bool :=
  c = ' ' || c = '\t' || c = '\n' || c = '\r'

def skipJWs (l : List Char) : List Char := l.dropWhile isJsonWs

def hexVal (c : Char) : Option Nat :=
  if '0' ≤ c ∧ c ≤ '9' then some (c.toNat - 48)
  else if 'a' ≤ c ∧ c ≤ 'f' then some (c.toNat - 87)
  else if 'A' ≤ c ∧ c ≤ 'F' then some (c.toNat - 55)
  else none

def escChar (c : Char) : Option Char :=
  if c = '"' then some '"'
  else if c = '\\' then some '\\'
  else if c = '/' then some '/'
  else if c = 'b' then some '\x08'
  else if c = 'f' then some '\x0c'
  else if c = 'n' then some '\n'
  else if c = 'r' then some '\r'
  else if c = 't' then some '\t'
  else none

/-- JSON string body parser (after the opening quote): returns the
decoded characters and the input after the closing quote. Raw control
characters and invalid escapes are rejected, as `JSON.parse` does. -/
def pStr (fuel : Nat) (l : List Char) : Option (List Char × List Char) :=
  match fuel with
  | 0 => none
  | f + 1 =>
    match l with
    | [] => none
    | '"' :: rest => some ([], rest)
    | '\\' :: 'u' :: h1 :: h2 :: h3 :: h4 :: rest =>
      match hexVal h1, hexVal h2, hexVal h3, hexVal h4 with
      | some a, some b, some c, some d =>
        (pStr f rest).map
          (fun p => (Char.ofNat (a * 4096 + b * 256 + c * 16 + d) :: p.1, p.2))
      | _, _, _, _ => none
    | '\\' :: e :: rest =>
      (escChar e).bind (fun ch => (pStr f rest).map (fun p => (ch :: p.1, p.2)))
    | c :: rest =>
      if c.toNat < 32 then none
      else (pStr f rest).map (fun p => (c :: p.1, p.2))

/-- JSON number parser: `-? (0 | [1-9][0-9]*) (. [0-9]+)? ([eE][+-]?[0-9]+)?`.
Returns the lexeme and the rest of the input. -/
def pNum (l : List Char) : Option (List Char × List Char) :=
  let sl : List Char × List Char :=
    match l with
    | '-' :: r => (['-'], r)
    | _ => ([], l)
  match sl.2 with
  | [] => none
  | c :: r0 =>
    if c = '0' then
      pNumTail sl.1 ['0'] r0
    else if c.isDigit then
      let ip := sl.2.takeWhile Char.isDigit
      pNumTail sl.1 ip (sl.2.drop ip.length)
    else none
where
  pNumTail (sgn ip r1 : List Char) : Option (List Char × List Char) :=
    let fracRes : Option (List Char × List Char) :=
      match r1 with
      | '.' :: r =>
        let ds := r.takeWhile Char.isDigit
        if ds.isEmpty then none else some ('.' :: ds, r.drop ds.length)
      | _ => some ([], r1)
    match fracRes with
    | none => none
    | some (fr, r2) =>
      let expRes : Option (List Char × List Char) :=
        match r2 with
        | c :: r =>
          if c = 'e' ∨ c = 'E' then
            let sr : List Char × List Char :=
              match r with
              | '+' :: rr => (['+'], rr)
              | '-' :: rr => (['-'], rr)
              | _ => ([], r)
            let ds := sr.2.takeWhile Char.isDigit
            if ds.isEmpty then none
            else some (c :: (sr.1 ++ ds), sr.2.drop ds.length)
          else some ([], c :: r)
        | [] => some ([], [])
      match expRes with
      | none => none
      | some (ex, r3) => some (sgn ++ ip ++ fr ++ ex, r3)

/-- JS object-property assignment on a field list: a duplicate key keeps
its original position but takes the new value. -/
def jsInsert (fs : List (String × Json)) (k : String) (v : Json) :
    List (String × Json) :=
  if fs.any (fun p => p.1 = k) then
    fs.map (fun p => if p.1 = k then (k, v) else p)
  else fs ++ [(k, v)]

inductive PM where
  | val : PM
  | members : List (String × Json) → PM
  | items : List Json → PM

/-- The recursive JSON grammar: values, object member lists and array
item lists, driven by fuel so that the definition is structural. -/
def pJson (fuel : Nat) (m : PM) (l : List Char) : Option (Json × List Char) :=
  match fuel with
  | 0 => none
  | f + 1 =>
    match m with
    | .val =>
      match skipJWs l with
      | '\x7b' :: rest =>
        (match skipJWs rest with
         | '\x7d' :: r2 => some (.obj [], r2)
         | r2 => pJson f (.members []) r2)
      | '[' :: rest =>
        (match skipJWs rest with
         | ']' :: r2 => some (.arr [], r2)
         | r2 => pJson f (.items []) r2)
      | '"' :: rest =>
        (pStr (rest.length + 1) rest).map (fun p => (.str ⟨p.1⟩, p.2))
      | 't' :: 'r' :: 'u' :: 'e' :: rest => some (.bool true, rest)
      | 'f' :: 'a' :: 'l' :: 's' :: 'e' :: rest => some (.bool false, rest)
      | 'n' :: 'u' :: 'l' :: 'l' :: rest => some (.null, rest)
      | l2 => (pNum l2).map (fun p => (.num p.1, p.2))
    | .members acc =>
      match l with
      | '"' :: rest =>
        (match pStr (rest.length + 1) rest with
         | none => none
         | some (k, r1) =>
           match skipJWs r1 with
           | ':' :: r2 =>
             (match pJson f .val r2 with
              | none => none
              | some (v, r3) =>
                match skipJWs r3 with
                | ',' :: r4 => pJson f (.members (jsInsert acc ⟨k⟩ v)) (skipJWs r4)
                | '\x7d' :: r4 => some (.obj (jsInsert acc ⟨k⟩ v), r4)
                | _ => none)
           | _ => none)
      | _ => none
    | .items acc =>
      match pJson f .val l with
      | none => none
      | some (v, r) =>
        match skipJWs r with
        | ',' :: r2 => pJson f (.items (acc ++ [v])) r2
        | ']' :: r2 => some (.arr (acc ++ [v]), r2)
        | _ => none

/-- Embedding of `JSON.parse`: parse one value and require only
whitespace after it. `none` models a thrown `SyntaxError`. -/
def jsonParse (l : List Char) : Option Json :=
  match pJson (4 * l.length + 8) .val l with
  | some (j, r) => if (skipJWs r).isEmpty then some j else none
  | none => none

/-! Manifest parsing (`DependencyParser.parseContent` and the
per-ecosystem parsers of parser.ts). -/

/-- Typed failures of the parser layer: the `default` branch of the
`parseContent` switch, and the `catch` blocks of `parseNpm` /
`parseComposer` which wrap the ecosystem kind and the underlying error
message. -/
inductive ParseErr where
  | unsupportedEcosystem : String → ParseErr
  | manifestParseError : String → String → ParseErr
deriving DecidableEq, Repr

/-- JS truthiness of a parsed JSON value (`if (packageJson.dependencies)`).
A number is falsy exactly when its mantissa digits are all zero. -/
def truthy : Json → Bool
  | .null => false
  | .bool b => b
  | .num lex =>
    !((lex.filter (fun c => c.isDigit)).takeWhile (fun c => c = '0')
        = lex.filter (fun c => c.isDigit))
  | .str s => s ≠ ""
  | .arr _ => true
  | .obj _ => true

/-- JS property access `obj[key]` on a parsed JSON value: `none` models
`undefined`; accessing a property of `null` throws a `TypeError`. -/
def jsGetMember (j : Json) (key : String) : Except String (Option Json) :=
  match j with
  | .null => .error "Cannot read properties of null"
  | .obj fs => .ok ((fs.find? (fun p => p.1 = key)).map (fun p => p.2))
  | _ => .ok none

/-- Embedding of `Object.entries` on parsed JSON values: fields for
objects, index/element pairs for arrays, index/character pairs for
strings, nothing for primitives. -/
def jsEntriesJson : Json → List (String × Json)
  | .obj fs => fs
  | .arr xs => (List.range xs.length).zip xs |>.map
      (fun p => (toString p.1, p.2))
  | .str s => (List.range s.data.length).zip s.data |>.map
      (fun p => (toString p.1, Json.str ⟨[p.2]⟩))
  | _ => []

/-- One dependency entry: `cleanVersion(version as string)` throws a
`TypeError` when the value is not a string. -/
def depOf (e : String × Json) : Except String Dependency :=
  match e.2 with
  | .str s => .ok ⟨e.1.data, cleanVersion s.data⟩
  | _ => .error "version.replace is not a function"

def depsOfMap (v : Json) : Except String (List Dependency) :=
  (jsEntriesJson v).mapM depOf

/-- The `require` loop of `parseComposer`: entries named exactly
`"php"` are skipped before any version handling. -/
def depsOfMapNoPhp (v : Json) : Except String (List Dependency) :=
  ((jsEntriesJson v).filter (fun e => e.1 ≠ "php")).mapM depOf

/-- Shared shape of `parseNpm`/`parseComposer` after `JSON.parse`: read
one map field (guarded by truthiness) and collect its entries. -/
def depsOfField (j : Json) (key : String)
    (collect : Json → Except String (List Dependency)) :
    Except String (List Dependency) := do
  let f ← jsGetMember j key
  match f with
  | some v => if truthy v then collect v else pure []
  | none => pure []

/-- Body of `parseNpm` on the parsed JSON value: union of
`dependencies` and `devDependencies` entries in declaration order. -/
def parseNpmJson (j : Json) : Except String (List Dependency) := do
  let a ← depsOfField j "dependencies" depsOfMap
  let b ← depsOfField j "devDependencies" depsOfMap
  pure (a ++ b)

/-- Body of `parseComposer` on the parsed JSON value: `require` entries
with `"php"` skipped, then all `require-dev` entries. -/
def parseComposerJson (j : Json) : Except String (List Dependency) := do
  let a ← depsOfField j "require" depsOfMapNoPhp
  let b ← depsOfField j "require-dev" depsOfMap
  pure (a ++ b)

/-- Embedding of `DependencyParser.parseNpm` (parser.ts:59): parse the
JSON content; any thrown error is wrapped into a manifest parse error
carrying the ecosystem kind and the cause. -/
def parseNpm (content : List Char) : Except ParseErr (List Dependency) :=
  match jsonParse content with
  | none => .error (.manifestParseError "npm" "invalid JSON")
  | some j =>
    match parseNpmJson j with
    | .ok ds => .ok ds
    | .error e => .error (.manifestParseError "npm" e)

/-- Embedding of `DependencyParser.parseComposer` (parser.ts:211). -/
def parseComposer (content : List Char) : Except ParseErr (List Dependency) :=
  match jsonParse content with
  | none => .error (.manifestParseError "composer" "invalid JSON")
  | some j =>
    match parseComposerJson j with
    | .ok ds => .ok ds
    | .error e => .error (.manifestParseError "composer" e)

/-! Line-oriented parsers for the remaining ecosystems. They are needed
so that `parseContent` has all eight branches of the switch. -/

/-- Split `before`/`after` around the first occurrence of `pat`. -/
def splitFirst (pat : List Char) : List Char → Option (List Char × List Char)
  | [] => if pat.isEmpty then some ([], []) else none
  | c :: rest =>
    if pat.isPrefixOf (c :: rest) then some ([], (c :: rest).drop pat.length)
    else (splitFirst pat rest).map (fun p => (c :: p.1, p.2))

/-- Embedding of the `parseMaven` regex scan (parser.ts:131): for each
`<dependency>` block, the first `<groupId>`, `<artifactId>` and
`<version>` contents after it (single-line tag contents assumed, which
is what the dot-based captures of the regex accept). -/
def mavenAt (s : List Char) : Option (Dependency × List Char) := do
  let a ← splitFirst (toL "<groupId>") s
  let g ← splitFirst (toL "</groupId>") a.2
  let b ← splitFirst (toL "<artifactId>") g.2
  let ar ← splitFirst (toL "</artifactId>") b.2
  let c ← splitFirst (toL "<version>") ar.2
  let ve ← splitFirst (toL "</version>") c.2
  let d ← splitFirst (toL "</dependency>") ve.2
  pure (⟨trimJs g.1 ++ ':' :: trimJs ar.1, cleanVersion (trimJs ve.1)⟩, d.2)

def mavenScan (fuel : Nat) (l : List Char) : List Dependency :=
  match fuel with
  | 0 => []
  | f + 1 =>
    match l with
    | [] => []
    | c :: rest =>
      if (toL "<dependency>").isPrefixOf (c :: rest) then
        match mavenAt ((c :: rest).drop 12) with
        | some (d, r) => d :: mavenScan f r
        | none => mavenScan f rest
      else mavenScan f rest

def parseMaven (content : List Char) : List Dependency :=
  mavenScan (content.length + 1) content

/-- One attribute-pair match for the `parseNuget` regexes: a literal
opening (`<package id="` / `<PackageReference Include="`), a non-empty
quoted capture, the literal middle (` version="` / ` Version="`) and a
second non-empty quoted capture. -/
def pkgAt (openPat midPat : List Char) (s : List Char) :
    Option (Dependency × List Char) :=
  if openPat.isPrefixOf s then
    let r := s.drop openPat.length
    let n := r.takeWhile (fun c => c ≠ '"')
    if n.isEmpty then none
    else
      match r.drop n.length with
      | '"' :: r2 =>
        if midPat.isPrefixOf r2 then
          let r3 := r2.drop midPat.length
          let v := r3.takeWhile (fun c => c ≠ '"')
          if v.isEmpty then none
          else
            match r3.drop v.length with
            | '"' :: r4 => some (⟨trimJs n, cleanVersion (trimJs v)⟩, r4)
            | _ => none
        else none
      | _ => none
  else none

def pkgScan (fuel : Nat) (openPat midPat : List Char) (l : List Char) :
    List Dependency :=
  match fuel with
  | 0 => []
  | f + 1 =>
    match l with
    | [] => []
    | c :: rest =>
      match pkgAt openPat midPat (c :: rest) with
      | some (d, r) => d :: pkgScan f openPat midPat r
      | none => pkgScan f openPat midPat rest

/-- Embedding of `parseNuget` (parser.ts:152): the packages.config scan
followed by the csproj `PackageReference` scan. -/
def parseNuget (content : List Char) : List Dependency :=
  pkgScan (content.length + 1) (toL "<package id=\"") (toL " version=\"") content ++
  pkgScan (content.length + 1) (toL "<PackageReference Include=\"")
    (toL " Version=\"") content

/-- Quote characters accepted by the Gemfile regex class. -/
def isGemQuote (c : Char) : Bool := c = '\'' || c = '"'

/-- One match of `gem\s+['"]([^'"]+)['"](?:\s*,\s*['"]([^'"]+)['"])?`
starting exactly here. -/
def gemAt (s : List Char) : Option Dependency :=
  if (toL "gem").isPrefixOf s then
    let r := s.drop 3
    let w := r.takeWhile isWsJs
    if w.isEmpty then none
    else
      match r.drop w.length with
      | q :: r2 =>
        if isGemQuote q then
          let n := r2.takeWhile (fun c => !(isGemQuote c))
          if n.isEmpty then none
          else
            match r2.drop n.length with
            | q2 :: r3 =>
              if isGemQuote q2 then
                let opt : Option (List Char) :=
                  let r4 := r3.dropWhile isWsJs
                  match r4 with
                  | ',' :: r5 =>
                    match r5.dropWhile isWsJs with
                    | q3 :: r6 =>
                      if isGemQuote q3 then
                        let v := r6.takeWhile (fun c => !(isGemQuote c))
                        if v.isEmpty then none
                        else
                          match r6.drop v.length with
                          | q4 :: _ => if isGemQuote q4 then some v else none
                          | _ => none
                      else none
                    | _ => none
                  | _ => none
                match opt with
                | some v => some ⟨trimJs n, cleanVersion (trimJs v)⟩
                | none => some ⟨trimJs n, toL "latest"⟩
              else none
            | _ => none
        else none
      | _ => none
  else none

/-- Leftmost `gemAt` match anywhere in the line. -/
def gemScan : List Char → Option Dependency
  | [] => none
  | c :: rest =>
    match gemAt (c :: rest) with
    | some d => some d
    | none => gemScan rest

/-- Embedding of `parseRubygems` (parser.ts:182). -/
def parseRubygems (content : List Char) : List Dependency :=
  (splitNl content).flatMap (fun line =>
    match trimJs line with
    | [] => []
    | c :: rest =>
      if c = '#' then []
      else
        match gemScan (c :: rest) with
        | some d => [d]
        | none => [])

/-- The `(?:require\s+)?([^\s]+)\s+([^\s]+)` match at the start of a
trimmed go.mod line: the greedy optional `require` prefix is taken when
the full match still succeeds afterwards, otherwise dropped. -/
def goLineDep (t : List Char) : Option Dependency :=
  let plain : List Char → Option Dependency := fun u =>
    let n := u.takeWhile (fun c => !(isWsJs c))
    if n.isEmpty then none
    else
      let r := u.drop n.length
      let w := r.takeWhile isWsJs
      if w.isEmpty then none
      else
        let v := (r.drop w.length).takeWhile (fun c => !(isWsJs c))
        if v.isEmpty then none
        else some ⟨trimJs n, cleanVersion (trimJs v)⟩
  if (toL "require").isPrefixOf t then
    let r := t.drop 7
    let w := r.takeWhile isWsJs
    if w.isEmpty then plain t
    else
      match plain (r.drop w.length) with
      | some d => some d
      | none => plain t
  else plain t

/-- Embedding of `parseGo` (parser.ts:248): tracks the `require ( ... )`
block and parses `name version` pairs inside it or on standalone
`require` lines. -/
def parseGo (content : List Char) : List Dependency :=
  ((splitNl content).foldl (fun (st : Bool × List Dependency) line =>
    match trimJs line with
    | [] => st
    | c :: rest =>
      let t := c :: rest
      if c = '/' ∧ rest.take 1 = ['/'] then st
      else if t = toL "require (" then (true, st.2)
      else if t = [')'] ∧ st.1 then (false, st.2)
      else if st.1 ∨ (toL "require ").isPrefixOf t then
        match goLineDep t with
        | some d => (st.1, st.2 ++ [d])
        | none => st
      else st) (false, [])).2

/-- The anchored `^([^=\s]+)\s*=\s*"([^"]+)"` match of `parseCargo`. -/
def cargoLineDep (t : List Char) : Option Dependency :=
  let n := t.takeWhile (fun c => c ≠ '=' && !(isWsJs c))
  if n.isEmpty then none
  else
    match (t.drop n.length).dropWhile isWsJs with
    | '=' :: r2 =>
      match r2.dropWhile isWsJs with
      | '"' :: r3 =>
        let v := r3.takeWhile (fun c => c ≠ '"')
        if v.isEmpty then none
        else
          match r3.drop v.length with
          | '"' :: _ => some ⟨trimJs n, cleanVersion (trimJs v)⟩
          | _ => none
      | _ => none
    | _ => none

/-- Embedding of `parseCargo` (parser.ts:291): tracks whether the
current `[section]` is `[dependencies]` or `[dev-dependencies]` and
matches `key = "version"` lines inside it. -/
def parseCargo (content : List Char) : List Dependency :=
  ((splitNl content).foldl (fun (st : Bool × List Dependency) line =>
    match trimJs line with
    | [] => st
    | c :: rest =>
      let t := c :: rest
      if c = '#' then st
      else if c = '[' then
        (t = toL "[dependencies]" ∨ t = toL "[dev-dependencies]", st.2)
      else if st.1 then
        match cargoLineDep t with
        | some d => (st.1, st.2 ++ [d])
        | none => st
      else st) (false, [])).2

/-- The eight ecosystem identifiers of the registry. -/
def knownEcosystems : List String :=
  ["npm", "pypi", "maven", "nuget", "rubygems", "composer", "go", "cargo"]

/-- Embedding of `DependencyParser.parseContent` (parser.ts:31): the
switch over the ecosystem identifier, with the `default` branch
throwing `Unsupported ecosystem`. -/
def parseContent (content : List Char) (ecosystem : String) :
    Except ParseErr (List Dependency) :=
  if ecosystem = "npm" then parseNpm content
  else if ecosystem = "pypi" then .ok (parsePypi content)
  else if ecosystem = "maven" then .ok (parseMaven content)
  else if ecosystem = "nuget" then .ok (parseNuget content)
  else if ecosystem = "rubygems" then .ok (parseRubygems content)
  else if ecosystem = "composer" then parseComposer content
  else if ecosystem = "go" then .ok (parseGo content)
  else if ecosystem = "cargo" then .ok (parseCargo content)
  else .error (.unsupportedEcosystem ecosystem)

/-! Claim-level results about the composer parser and error handling. -/

/-- A composer manifest whose `require` / `require-dev` fields are
string-to-string maps, as a parsed JSON value. -/
def strMapJson (m : List (String × String)) : Json :=
  .obj (m.map (fun e => (e.1, Json.str e.2)))

def mkComposer (req dev : List (String × String)) : Json :=
  .obj [("require", strMapJson req), ("require-dev", strMapJson dev)]

/-- Name kept, version cleaned — the shape of every emitted entry. -/
def cleanPair (e : String × String) : Dependency :=
  ⟨e.1.data, cleanVersion e.2.data⟩

theorem mapM_depOf_strMap :
    ∀ m : List (String × String),
      ((m.map (fun e => (e.1, Json.str e.2))).mapM depOf)
        = .ok (m.map cleanPair) := by
  intro m
  induction m with
  | nil => rfl
  | cons e m ih =>
    simp only [List.map_cons, List.mapM_cons, ih, depOf, cleanPair]
    rfl

/-- C1 counterexample: an entry named exactly `"php"` in `require-dev`
is not excluded — `parseComposer` emits it. The claim's "regardless of
which of the two maps it appears in" is false on the code, which skips
`"php"` only inside the `require` loop. -/
theorem parseComposer_php_requireDev_counterexample :
    parseComposer (toL "\x7b\"require-dev\":\x7b\"php\":\">=7.4\"\x7d\x7d")
      = .ok [⟨toL "php", toL "7.4"⟩] ∧
    (Dependency.mk (toL "php") (toL "7.4")).name = toL "php" := ⟨rfl, rfl⟩

/-- C1 (amended): on a composer manifest with string-map `require` and
`require-dev` fields, the parser returns the `require` entries with the
literal name `"php"` excluded, followed by all `require-dev` entries
(including one named `"php"`), each with its version cleaned; in
particular the claim's scenario holds. -/
theorem parseComposer_union_php_skip :
    (∀ req dev : List (String × String),
      parseComposerJson (mkComposer req dev)
        = .ok ((req.filter (fun e => e.1 ≠ "php")).map cleanPair
            ++ dev.map cleanPair)) ∧
    parseComposer
        (toL "\x7b\"require\":\x7b\"php\":\">=7.4\",\"monolog/monolog\":\"^2.0\"\x7d\x7d")
      = .ok [⟨toL "monolog/monolog", toL "2.0"⟩] := by
  constructor
  · intro req dev
    have hreq : jsGetMember (mkComposer req dev) "require"
        = .ok (some (strMapJson req)) := by
      simp [mkComposer, jsGetMember, List.find?]
    have hdev : jsGetMember (mkComposer req dev) "require-dev"
        = .ok (some (strMapJson dev)) := by
      simp [mkComposer, jsGetMember, List.find?]
    have hnophp : depsOfMapNoPhp (strMapJson req)
        = .ok ((req.filter (fun e => e.1 ≠ "php")).map cleanPair) := by
      unfold depsOfMapNoPhp
      have hf : (jsEntriesJson (strMapJson req)).filter (fun e => e.1 ≠ "php")
          = (req.filter (fun e => e.1 ≠ "php")).map
              (fun e => (e.1, Json.str e.2)) := by
        simp only [strMapJson, jsEntriesJson, List.filter_map]
        rfl
      rw [hf, mapM_depOf_strMap]
    have hall : depsOfMap (strMapJson dev) = .ok (dev.map cleanPair) := by
      unfold depsOfMap
      show (jsEntriesJson (.obj (dev.map (fun e => (e.1, Json.str e.2))))).mapM depOf
          = .ok (dev.map cleanPair)
      exact mapM_depOf_strMap dev
    have hfield1 : depsOfField (mkComposer req dev) "require" depsOfMapNoPhp
        = .ok ((req.filter (fun e => e.1 ≠ "php")).map cleanPair) := by
      simp only [depsOfField, hreq, bind, Except.bind]
      rw [if_pos (by rfl)]
      exact hnophp
    have hfield2 : depsOfField (mkComposer req dev) "require-dev" depsOfMap
        = .ok (dev.map cleanPair) := by
      simp only [depsOfField, hdev, bind, Except.bind]
      rw [if_pos (by rfl)]
      exact hall
    simp only [parseComposerJson, hfield1, hfield2, bind, Except.bind, pure,
      Except.pure]
  · rfl

/-- C7: `parseContent` fails with `Unsupported ecosystem` for every
identifier outside the eight known ones (in particular `"unknown"`),
and with a manifest parse error carrying the ecosystem kind and the
underlying cause for every content rejected by `JSON.parse` under the
`npm` and `composer` ecosystems. -/
theorem parseContent_error_handling :
    (∀ ecosystem content, ecosystem ∉ knownEcosystems →
      parseContent content ecosystem
        = .error (.unsupportedEcosystem ecosystem)) ∧
    (∀ content, jsonParse content = none →
      parseContent content "npm"
          = .error (.manifestParseError "npm" "invalid JSON") ∧
      parseContent content "composer"
          = .error (.manifestParseError "composer" "invalid JSON")) ∧
    parseContent (toL "x") "unknown"
      = .error (.unsupportedEcosystem "unknown") := by
  refine ⟨?_, ?_, by rfl⟩
  · intro eco content h
    simp only [knownEcosystems, List.mem_cons, List.not_mem_nil, or_false,
      not_or] at h
    obtain ⟨h1, h2, h3, h4, h5, h6, h7, h8⟩ := h
    simp [parseContent, h1, h2, h3, h4, h5, h6, h7, h8]
  · intro content h
    constructor
    · simp [parseContent, parseNpm, h]
    · simp [parseContent, parseComposer, h]

/-- Witness for C7 at concrete inputs. -/
theorem parseContent_error_handling_witness :
    parseContent (toL "\x7b") "weird"
        = .error (.unsupportedEcosystem "weird") ∧
    parseContent (toL "\x7b") "npm"
        = .error (.manifestParseError "npm" "invalid JSON") ∧
    parseContent (toL "\x7b") "composer"
        = .error (.manifestParseError "composer" "invalid JSON") :=
  ⟨parseContent_error_handling.1 "weird" (toL "\x7b") (by decide),
   (parseContent_error_handling.2.1 (toL "\x7b") (by rfl)).1,
   (parseContent_error_handling.2.1 (toL "\x7b") (by rfl)).2⟩

/-! The detector (`DependencyDetector`, detector.ts). File trees are
modelled explicitly; paths are segment lists relative to the project
root (the code uses absolute paths, which only adds the same constant
prefix length to every candidate of one scan, so segment-count
comparisons are unchanged). Directory listings are modelled as the
file list followed by the subdirectory list. -/

/-- Candidate classification (`DetectedFile.type`). -/
inductive FType where
  | primary : FType
  | lockfile : FType
  | config : FType
deriving DecidableEq, Repr

/-- Embedding of `DetectedFile` (types/cli.ts) with the confidence in
hundredths. -/
structure DetectedFile where
  path : List String
  ecosystem : String
  confidence : Nat
  ftype : FType
deriving DecidableEq, Repr

/-- Embedding of `EcosystemConfig`: the three filename lists of the
`files` record are flattened into fields. -/
structure EcosystemConfig where
  name : String
  displayName : String
  primary : List String
  lockfiles : List String
  config : List String
  parser : String

/-- The registry table `ECOSYSTEM_CONFIGS` (detector.ts:7). -/
def ECOSYSTEM_CONFIGS : List EcosystemConfig :=
  [⟨"npm", "Node.js/npm", ["package.json"],
    ["package-lock.json", "yarn.lock", "pnpm-lock.yaml"], [".npmrc"], "npm"⟩,
   ⟨"pypi", "Python/PyPI",
    ["requirements.txt", "Pipfile", "pyproject.toml", "setup.py"],
    ["Pipfile.lock", "poetry.lock"], ["pip.conf", ".pip.conf"], "pypi"⟩,
   ⟨"maven", "Java/Maven", ["pom.xml", "build.gradle", "build.gradle.kts"],
    ["gradle.lockfile"], ["gradle.properties", "settings.gradle"], "maven"⟩,
   ⟨"nuget", ".NET/NuGet", ["packages.config"], ["packages.lock.json"],
    ["nuget.config"], "nuget"⟩,
   ⟨"rubygems", "Ruby/RubyGems", ["Gemfile"], ["Gemfile.lock"], [".gemrc"],
    "rubygems"⟩,
   ⟨"composer", "PHP/Composer", ["composer.json"], ["composer.lock"], [],
    "composer"⟩,
   ⟨"go", "Go", ["go.mod"], ["go.sum"], [], "go"⟩,
   ⟨"cargo", "Rust/Cargo", ["Cargo.toml"], ["Cargo.lock"],
    [".cargo/config.toml"], "cargo"⟩]

/-- The ignore list `IGNORE_DIRECTORIES` (detector.ts:91). -/
def IGNORE_DIRECTORIES : List String :=
  ["node_modules", ".git", ".svn", ".hg", "dist", "build", "target", "bin",
   "obj", "__pycache__", ".pytest_cache", "venv", "env", ".env", ".vscode",
   ".idea", "coverage", ".nyc_output", "logs", "tmp", "temp"]

/-- A directory tree: a list of plain file names and a list of named
subdirectories. -/
inductive FsTree where
  | node : List String → List (String × FsTree) → FsTree
deriving Repr

def FsTree.files : FsTree → List String
  | .node fs _ => fs

def FsTree.dirs : FsTree → List (String × FsTree)
  | .node _ ds => ds

/-- Embedding of `fs.pathExists(path.join(dirPath, fileName))` relative
to the directory `t`: a file or a directory at the segment path counts
as existing. -/
def pathExists (t : FsTree) : List String → Bool
  | [] => true
  | [n] => t.files.contains n || t.dirs.any (fun d => d.1 = n)
  | n :: rest =>
    match t.dirs.find? (fun d => d.1 = n) with
    | some d => pathExists d.2 rest
    | none => false

/-- Split a character list at `/` separators. -/
def splitSlash : List Char → List (List Char)
  | [] => [[]]
  | c :: rest =>
    match splitSlash rest with
    | [] => [[c]]
    | h :: t => if c = '/' then [] :: h :: t else (c :: h) :: t

/-- A registry file name split at `/` (needed for the nested
`.cargo/config.toml` entry). -/
def splitPath (s : String) : List String :=
  (splitSlash s.data).map (fun cs => ⟨cs⟩)

/-- One filename list of one registry entry checked against one
directory. -/
def checkFiles (t : FsTree) (dirPath : List String) (names : List String)
    (eco : String) (conf : Nat) (ft : FType) : List DetectedFile :=
  (names.filter (fun fn => pathExists t (splitPath fn))).map
    (fun fn => ⟨dirPath ++ splitPath fn, eco, conf, ft⟩)

/-- Embedding of `scanDirectory` (detector.ts:192): every registry
entry's primary, lockfile and config filename lists, with the inline
confidence expressions (in hundredths; `Nat` subtraction truncates at
zero, which the surrounding `max` makes equivalent to the JS value). -/
def scanDirectory (t : FsTree) (dirPath : List String) (depth : Nat) :
    List DetectedFile :=
  ECOSYSTEM_CONFIGS.flatMap (fun cfg =>
    checkFiles t dirPath cfg.primary cfg.name
      (if depth = 0 then 90 else max 50 (90 - depth * 20)) .primary ++
    checkFiles t dirPath cfg.lockfiles cfg.name
      (if depth = 0 then 70 else max 30 (70 - depth * 20)) .lockfile ++
    checkFiles t dirPath cfg.config cfg.name
      (if depth = 0 then 30 else max 10 (30 - depth * 10)) .config)

/-- Embedding of `scanDirectoryRecursive` (detector.ts:156), driven by
fuel so the definition is structural; `detectFiles` supplies enough
fuel for the depth limit, at which the `currentDepth > maxDepth` guard
stops the walk. -/
def scanRec (fuel : Nat) (t : FsTree) (p : List String) (cd md : Nat) :
    List DetectedFile :=
  match fuel with
  | 0 => []
  | f + 1 =>
    if cd > md then []
    else
      t.dirs.flatMap (fun d =>
        if IGNORE_DIRECTORIES.contains d.1 then []
        else
          scanDirectory d.2 (p ++ [d.1]) cd ++
          scanRec f d.2 (p ++ [d.1]) (cd + 1) md)

/-- Embedding of `path.extname`: the suffix from the last `.`, where a
dot in first position does not count. -/
def extname (s : String) : String :=
  let tail := s.data.drop 1
  let rev := tail.reverse
  let pre := rev.takeWhile (fun c => c ≠ '.')
  if pre.length = rev.length then "" else ⟨'.' :: pre.reverse⟩

def dotNetExts : List String := [".csproj", ".fsproj", ".vbproj", ".sln"]

/-- Embedding of `scanForDotNetFiles` (detector.ts:407): always runs
from the root, pushes every `.csproj`/`.fsproj`/`.vbproj`/`.sln` file as
a `nuget` primary with flat confidence 0.9 (0.8 for `.sln`) at any
depth, and recurses through non-ignored directories up to the depth
limit. -/
def scanDotNet (fuel : Nat) (t : FsTree) (p : List String) (depth md : Nat) :
    List DetectedFile :=
  match fuel with
  | 0 => []
  | f + 1 =>
    if depth > md then []
    else
      (t.files.filter (fun n => dotNetExts.contains (extname n))).map
        (fun n =>
          ⟨p ++ [n], "nuget", if extname n = ".sln" then 80 else 90,
            .primary⟩) ++
      t.dirs.flatMap (fun d =>
        if IGNORE_DIRECTORIES.contains d.1 then []
        else scanDotNet f d.2 (p ++ [d.1]) (depth + 1) md)

/-- The fixed ecosystem preference order of the comparators. -/
def ecoPriority : List String :=
  ["npm", "pypi", "maven", "nuget", "rubygems", "composer", "go", "cargo"]

/-- `ecosystemPriority.indexOf(e)`, with the code's `-1 ↦ 999`
replacement applied. -/
def ecoIdx (e : String) : Int :=
  match ecoPriority.findIdx? (fun x => x = e) with
  | some i => (i : Int)
  | none => 999

/-- The sort comparator shared by `prioritizeFiles` (tolerance 0.05)
and `getBestFile` (tolerance 0.1), with confidences in hundredths:
primary type first, then confidence outside the tolerance, then fewer
path segments, then ecosystem preference. -/
def jsCompare (tol : Nat) (a b : DetectedFile) : Int :=
  if a.ftype = .primary ∧ b.ftype ≠ .primary then -1
  else if b.ftype = .primary ∧ a.ftype ≠ .primary then 1
  else if ((a.confidence : Int) - (b.confidence : Int)).natAbs > tol then
    (b.confidence : Int) - (a.confidence : Int)
  else if a.path.length ≠ b.path.length then
    (a.path.length : Int) - (b.path.length : Int)
  else ecoIdx a.ecosystem - ecoIdx b.ecosystem

/-- Sorting places `a` before `b` when the comparator does not order it
strictly after. -/
abbrev bestRel (tol : Nat) (a b : DetectedFile) : Prop := jsCompare tol a b ≤ 0

/-- Embedding of `prioritizeFiles` (detector.ts:516) as a stable
comparator-respecting sort. -/
def prioritizeFiles (files : List DetectedFile) : List DetectedFile :=
  List.insertionSort (bestRel 5) files

/-- Embedding of `detectFiles` (detector.ts:127): scan depth 0; only if
that found nothing, run the recursive registry scan from depth 1; then
always run the .NET project scan; finally sort. -/
def detectFiles (t : FsTree) (md : Nat) : List DetectedFile :=
  let d0 := scanDirectory t [] 0
  let base := if d0.isEmpty then scanRec (md + 1) t [] 1 md else d0
  prioritizeFiles (base ++ scanDotNet (md + 2) t [] 0 md)

/-- Embedding of `getBestFile` (detector.ts:305). The second component
is the caller's array after the call: `sort` mutates it in place
exactly when the unfiltered list was sorted (no hint, empty-string
hint, or a hint whose filter matched nothing). -/
def getBestFile (files : List DetectedFile) (eco? : Option String) :
    Option DetectedFile × List DetectedFile :=
  if files.length = 0 then (none, files)
  else
    let useFilter : Bool := match eco? with
      | some e => e != ""
      | none => false
    if useFilter then
      let filtered := files.filter
        (fun f => f.ecosystem = (eco?.getD ""))
      if filtered.length = 0 then
        let s := List.insertionSort (bestRel 10) files
        (s.head?, s)
      else
        let s := List.insertionSort (bestRel 10) filtered
        (s.head?, files)
    else
      let s := List.insertionSort (bestRel 10) files
      (s.head?, s)

/-! Content sniffing (`detectByContent`, detector.ts:446): each regex
signature is embedded as a matcher over the raw text. -/

/-- Does `test` hold at some suffix of `l` (regex search without an
anchor)? -/
def anySuffix (test : List Char → Bool) (l : List Char) : Bool :=
  l.tails.any test

/-- Substring containment (an alternation member that is a literal). -/
def hasInfix (pat l : List Char) : Bool :=
  l.tails.any (fun s => pat.isPrefixOf s)

/-- The shape `pat\s*"[^"]+"` at the start of a suffix. -/
def quotedAfter (pat : List Char) (s : List Char) : Bool :=
  pat.isPrefixOf s &&
    (match (s.drop pat.length).dropWhile isWsJs with
     | '"' :: r2 =>
       let body := r2.takeWhile (fun c => c ≠ '"')
       !body.isEmpty &&
         (match r2.drop body.length with
          | '"' :: _ => true
          | _ => false)
     | _ => false)

/-- The shape `pat\s+` at the start of the input. -/
def wsAfter (pat : List Char) (s : List Char) : Bool :=
  pat.isPrefixOf s && !((s.drop pat.length).takeWhile isWsJs).isEmpty

/-- The shape `a` + non-line-terminator gap + `b` at a suffix (a
one-line `.*` gap). -/
def searchNoNl (b : List Char) : List Char → Bool
  | [] => b.isPrefixOf []
  | c :: rest => b.isPrefixOf (c :: rest) || (!(isLineTerm c) && searchNoNl b rest)

def sameLineAfter (a b : List Char) (s : List Char) : Bool :=
  a.isPrefixOf s && searchNoNl b (s.drop a.length)

/-- The shape `a\s+b` at a suffix. -/
def wsThen (a b : List Char) (s : List Char) : Bool :=
  a.isPrefixOf s &&
    (let r := s.drop a.length
     let w := r.takeWhile isWsJs
     !w.isEmpty && b.isPrefixOf (r.drop w.length))

/-- The shape `a\s+` + a non-empty run of `cls` characters. -/
def wsThenRun (a : List Char) (cls : Char → Bool) (s : List Char) : Bool :=
  a.isPrefixOf s &&
    (let r := s.drop a.length
     let w := r.takeWhile isWsJs
     !w.isEmpty && !((r.drop w.length).takeWhile cls).isEmpty)

/-- npm signature:
`"dependencies":|"devDependencies":|"scripts":|"name":\s*"[^"]+"|"version":\s*"[^"]+"`. -/
def npmSig (c : List Char) : Bool :=
  hasInfix (toL "\"dependencies\":") c ||
  hasInfix (toL "\"devDependencies\":") c ||
  hasInfix (toL "\"scripts\":") c ||
  anySuffix (quotedAfter (toL "\"name\":")) c ||
  anySuffix (quotedAfter (toL "\"version\":")) c

/-- pypi signature (anchored: no `m` flag, so `^` is the start of the
content): `^[a-zA-Z0-9\-_.]+[>=<~!]=|^-r\s+|^--requirement\s+|^pip\s+install`. -/
def pypiSig (c : List Char) : Bool :=
  (let n := c.takeWhile isPyName
   !n.isEmpty &&
     (match c.drop n.length with
      | a :: '=' :: _ => isPyOp a
      | _ => false)) ||
  wsAfter (toL "-r") c ||
  wsAfter (toL "--requirement") c ||
  ((toL "pip").isPrefixOf c &&
    (let r := c.drop 3
     let w := r.takeWhile isWsJs
     !w.isEmpty && (toL "install").isPrefixOf (r.drop w.length)))

/-- maven signature:
`<dependencies>|<groupId>|<artifactId>|<version>.*<\/version>|<project.*xmlns`. -/
def mavenSig (c : List Char) : Bool :=
  hasInfix (toL "<dependencies>") c ||
  hasInfix (toL "<groupId>") c ||
  hasInfix (toL "<artifactId>") c ||
  anySuffix (sameLineAfter (toL "<version>") (toL "</version>")) c ||
  anySuffix (sameLineAfter (toL "<project") (toL "xmlns")) c

/-- nuget signature: `<PackageReference|<package\s+id=|<Project\s+Sdk=`. -/
def nugetSig (c : List Char) : Bool :=
  hasInfix (toL "<PackageReference") c ||
  anySuffix (wsThen (toL "<package") (toL "id=")) c ||
  anySuffix (wsThen (toL "<Project") (toL "Sdk=")) c

/-- One match of `gem\s+['"][a-zA-Z0-9\-_.]+['"]` at a suffix. -/
def gemSigAt (s : List Char) : Bool :=
  (toL "gem").isPrefixOf s &&
    (let r := s.drop 3
     let w := r.takeWhile isWsJs
     !w.isEmpty &&
       (match r.drop w.length with
        | q :: r2 =>
          isGemQuote q &&
            (let n := r2.takeWhile isPyName
             !n.isEmpty &&
               (match r2.drop n.length with
                | q2 :: _ => isGemQuote q2
                | _ => false))
        | _ => false))

/-- One match of `source\s+['"]https:\/\/rubygems\.org['"]` at a
suffix. -/
def gemSourceAt (s : List Char) : Bool :=
  (toL "source").isPrefixOf s &&
    (let r := s.drop 6
     let w := r.takeWhile isWsJs
     !w.isEmpty &&
       (match r.drop w.length with
        | q :: r2 =>
          isGemQuote q && (toL "https://rubygems.org").isPrefixOf r2 &&
            (match r2.drop 20 with
             | q2 :: _ => isGemQuote q2
             | _ => false)
        | _ => false))

def rubygemsSig (c : List Char) : Bool :=
  anySuffix gemSigAt c || anySuffix gemSourceAt c

/-- composer signature: `"require":|"require-dev":|"autoload":|"psr-4":`. -/
def composerSig (c : List Char) : Bool :=
  hasInfix (toL "\"require\":") c ||
  hasInfix (toL "\"require-dev\":") c ||
  hasInfix (toL "\"autoload\":") c ||
  hasInfix (toL "\"psr-4\":") c

def isGoModChar (c : Char) : Bool := isPyName c || c = '/'

/-- One match of `go\s+\d+\.\d+` at a suffix. -/
def goVerAt (s : List Char) : Bool :=
  (toL "go").isPrefixOf s &&
    (let r := s.drop 2
     let w := r.takeWhile isWsJs
     !w.isEmpty &&
       (let r2 := r.drop w.length
        let d1 := r2.takeWhile Char.isDigit
        !d1.isEmpty &&
          (match r2.drop d1.length with
           | '.' :: r3 => !(r3.takeWhile Char.isDigit).isEmpty
           | _ => false)))

/-- go signature:
`module\s+[a-zA-Z0-9\-_.\/]+|require\s+[a-zA-Z0-9\-_.\/]+|go\s+\d+\.\d+`. -/
def goSig (c : List Char) : Bool :=
  anySuffix (wsThenRun (toL "module") isGoModChar) c ||
  anySuffix (wsThenRun (toL "require") isGoModChar) c ||
  anySuffix goVerAt c

/-- One match of `name\s*=\s*"[^"]+"` at a suffix. -/
def cargoNameAt (s : List Char) : Bool :=
  (toL "name").isPrefixOf s &&
    (match (s.drop 4).dropWhile isWsJs with
     | '=' :: r2 =>
       (match r2.dropWhile isWsJs with
        | '"' :: r4 =>
          let b := r4.takeWhile (fun c => c ≠ '"')
          !b.isEmpty &&
            (match r4.drop b.length with
             | '"' :: _ => true
             | _ => false)
        | _ => false)
     | _ => false)

/-- cargo signature:
`\[dependencies\]|\[dev-dependencies\]|\[package\]|name\s*=\s*"[^"]+"`. -/
def cargoSig (c : List Char) : Bool :=
  hasInfix (toL "[dependencies]") c ||
  hasInfix (toL "[dev-dependencies]") c ||
  hasInfix (toL "[package]") c ||
  anySuffix cargoNameAt c

/-- One entry of the ordered signature list of `detectByContent`. -/
structure ContentSig where
  eco : String
  test : List Char → Bool
  conf : Nat

/-- The `patterns` array of `detectByContent` (detector.ts:452), in its
priority order with its fixed confidences. -/
def contentSigs : List ContentSig :=
  [⟨"npm", npmSig, 80⟩, ⟨"pypi", pypiSig, 70⟩, ⟨"maven", mavenSig, 80⟩,
   ⟨"nuget", nugetSig, 80⟩, ⟨"rubygems", rubygemsSig, 70⟩,
   ⟨"composer", composerSig, 80⟩, ⟨"go", goSig, 80⟩, ⟨"cargo", cargoSig, 80⟩]

/-- The `for ... of patterns` loop: first matching signature wins. -/
def detectByContentAux (sigs : List ContentSig) (path : List String)
    (content : List Char) : Option DetectedFile :=
  match sigs with
  | [] => none
  | s :: rest =>
    if s.test content then some ⟨path, s.eco, s.conf, .primary⟩
    else detectByContentAux rest path content

/-- Embedding of `detectByContent` (detector.ts:446): always type
`primary`, ecosystem and confidence from the first matching
signature. -/
def detectByContent (path : List String) (content : List Char) :
    Option DetectedFile :=
  detectByContentAux contentSigs path content

theorem detectByContentAux_eq_find :
    ∀ (sigs : List ContentSig) (path : List String) (content : List Char),
      detectByContentAux sigs path content
        = (sigs.find? (fun s => s.test content)).map
            (fun s => ⟨path, s.eco, s.conf, .primary⟩) := by
  intro sigs path content
  induction sigs with
  | nil => rfl
  | cons s rest ih =>
    by_cases hs : s.test content = true
    · simp [detectByContentAux, List.find?_cons_of_pos, hs]
    · have hs' : s.test content = false := by simpa using hs
      simp [detectByContentAux, List.find?_cons_of_neg, hs, hs', ih]

/-- C8: sniffing evaluates the signature list in its fixed priority
order and returns the first match with that signature's fixed
confidence; on the content `"[dependencies]\nserde = \"1.0\""` none of
the seven earlier signatures matches and the cargo signature does, so
the result is ecosystem `cargo`, type `primary`, confidence 0.8. -/
theorem detectByContent_first_match :
    (∀ path content, detectByContent path content
        = (contentSigs.find? (fun s => s.test content)).map
            (fun s => ⟨path, s.eco, s.conf, .primary⟩)) ∧
    npmSig (toL "[dependencies]\nserde = \"1.0\"") = false ∧
    pypiSig (toL "[dependencies]\nserde = \"1.0\"") = false ∧
    mavenSig (toL "[dependencies]\nserde = \"1.0\"") = false ∧
    nugetSig (toL "[dependencies]\nserde = \"1.0\"") = false ∧
    rubygemsSig (toL "[dependencies]\nserde = \"1.0\"") = false ∧
    composerSig (toL "[dependencies]\nserde = \"1.0\"") = false ∧
    goSig (toL "[dependencies]\nserde = \"1.0\"") = false ∧
    cargoSig (toL "[dependencies]\nserde = \"1.0\"") = true ∧
    detectByContent ["Somefile"] (toL "[dependencies]\nserde = \"1.0\"")
      = some ⟨["Somefile"], "cargo", 80, .primary⟩ :=
  ⟨fun path content => detectByContentAux_eq_find contentSigs path content,
   by decide, by decide, by decide, by decide, by decide, by decide,
   by decide, by decide, by decide⟩

/-! Claim-level results about `detectFiles` (C4, C5). -/

/-- A root with a depth-0 manifest and a nested .NET project file. -/
def sampleTree : FsTree :=
  .node ["package.json"] [("sub", .node ["app.csproj"] [])]

/-- A root containing only a solution file. -/
def sampleSln : FsTree := .node ["x.sln"] []

/-- C4 counterexample: with `package.json` found at depth 0, the claim
forbids any returned file in a deeper directory, yet `detectFiles` still
returns the `.csproj` at depth 1 because the .NET project scan always
recurses. -/
theorem detectFiles_depth0_counterexample :
    scanDirectory sampleTree [] 0 ≠ [] ∧
    (⟨["sub", "app.csproj"], "nuget", 90, .primary⟩ : DetectedFile)
      ∈ detectFiles sampleTree 3 ∧
    (["sub", "app.csproj"] : List String).length = 2 := by
  refine ⟨by decide, by decide, by decide⟩

/-- C4 (amended): when the depth-0 scan finds at least one candidate,
the recursive registry scan is skipped entirely and the result consists
exactly of the depth-0 registry candidates together with the files of
the always-running .NET project scan (reordered by prioritisation). -/
theorem detectFiles_depth0_shortcircuit (t : FsTree) (md : Nat)
    (h : scanDirectory t [] 0 ≠ []) :
    (detectFiles t md).Perm
      (scanDirectory t [] 0 ++ scanDotNet (md + 2) t [] 0 md) := by
  unfold detectFiles
  have he : (scanDirectory t [] 0).isEmpty = false := by
    cases hk : scanDirectory t [] 0 with
    | nil => exact absurd hk h
    | cons a l => rfl
  simp only [he, Bool.false_eq_true, if_false]
  exact List.perm_insertionSort _ _

/-- Witness for the amended C4 on a concrete tree. -/
theorem detectFiles_depth0_shortcircuit_witness :
    (detectFiles sampleTree 3).Perm
      (scanDirectory sampleTree [] 0 ++ scanDotNet 5 sampleTree [] 0 3) :=
  detectFiles_depth0_shortcircuit sampleTree 3 (by decide)

/-- The per-type confidence formula of the claim (in hundredths):
base at depth 0, `max floor (base − depth·decay)` below. -/
def confFormula : FType → Nat → Nat
  | .primary, d => if d = 0 then 90 else max 50 (90 - d * 20)
  | .lockfile, d => if d = 0 then 70 else max 30 (70 - d * 20)
  | .config, d => if d = 0 then 30 else max 10 (30 - d * 10)

/-- The per-type confidence floor. -/
def floorOf : FType → Nat
  | .primary => 50
  | .lockfile => 30
  | .config => 10

theorem scanDirectory_conf (t : FsTree) (p : List String) (d : Nat)
    (f : DetectedFile) (hf : f ∈ scanDirectory t p d) :
    f.confidence = confFormula f.ftype d := by
  simp only [scanDirectory, checkFiles, List.mem_flatMap, List.mem_append,
    List.mem_map, List.mem_filter] at hf
  obtain ⟨cfg, -, hf⟩ := hf
  rcases hf with (hf | hf) | hf
  · obtain ⟨fn, hcond, heq⟩ := hf
    subst heq
    simp [confFormula]
  · obtain ⟨fn, hcond, heq⟩ := hf
    subst heq
    simp [confFormula]
  · obtain ⟨fn, hcond, heq⟩ := hf
    subst heq
    simp [confFormula]

theorem scanRec_conf :
    ∀ (fuel : Nat) (t : FsTree) (p : List String) (cd md : Nat)
      (f : DetectedFile), f ∈ scanRec fuel t p cd md →
      ∃ d, cd ≤ d ∧ d ≤ md ∧ f.confidence = confFormula f.ftype d := by
  intro fuel
  induction fuel with
  | zero => intro t p cd md f hf; exact absurd hf (by simp [scanRec])
  | succ fuel ih =>
    intro t p cd md f hf
    unfold scanRec at hf
    by_cases hg : cd > md
    · rw [if_pos hg] at hf; exact absurd hf (by simp)
    · rw [if_neg hg] at hf
      simp only [List.mem_flatMap] at hf
      obtain ⟨dsub, _, hf⟩ := hf
      by_cases hi : IGNORE_DIRECTORIES.contains dsub.1 = true
      · rw [if_pos hi] at hf; exact absurd hf (by simp)
      · rw [if_neg hi] at hf
        rcases List.mem_append.mp hf with hf | hf
        · exact ⟨cd, le_refl cd, by omega,
            scanDirectory_conf dsub.2 (p ++ [dsub.1]) cd f hf⟩
        · obtain ⟨d, hd1, hd2, hd3⟩ := ih dsub.2 (p ++ [dsub.1]) (cd + 1) md f hf
          exact ⟨d, by omega, hd2, hd3⟩

theorem scanDotNet_conf :
    ∀ (fuel : Nat) (t : FsTree) (p : List String) (depth md : Nat)
      (f : DetectedFile), f ∈ scanDotNet fuel t p depth md →
      f.ftype = .primary ∧ (f.confidence = 90 ∨ f.confidence = 80) := by
  intro fuel
  induction fuel with
  | zero => intro t p depth md f hf; exact absurd hf (by simp [scanDotNet])
  | succ fuel ih =>
    intro t p depth md f hf
    unfold scanDotNet at hf
    by_cases hg : depth > md
    · rw [if_pos hg] at hf; exact absurd hf (by simp)
    · rw [if_neg hg] at hf
      rcases List.mem_append.mp hf with hf | hf
      · simp only [List.mem_map, List.mem_filter] at hf
        obtain ⟨n, _, rfl⟩ := hf
        refine ⟨rfl, ?_⟩
        by_cases hs : extname n = ".sln"
        · right; simp [hs]
        · left; simp [hs]
      · simp only [List.mem_flatMap] at hf
        obtain ⟨dsub, _, hf⟩ := hf
        by_cases hi : IGNORE_DIRECTORIES.contains dsub.1 = true
        · rw [if_pos hi] at hf; exact absurd hf (by simp)
        · rw [if_neg hi] at hf
          exact ih dsub.2 (p ++ [dsub.1]) (depth + 1) md f hf

theorem confFormula_antitone (ft : FType) (d d' : Nat) (h : d ≤ d') :
    confFormula ft d' ≤ confFormula ft d := by
  cases ft <;> simp only [confFormula] <;> split_ifs <;> omega

theorem confFormula_bounds (ft : FType) (d : Nat) :
    floorOf ft ≤ confFormula ft d ∧ confFormula ft d ≤ 100 := by
  cases ft <;> simp only [confFormula, floorOf] <;> split_ifs <;> omega

/-- C5 counterexample: a solution file at depth 0 is returned with
confidence 0.8, while the claimed formula assigns 0.9 to a depth-0
primary candidate. -/
theorem detectFiles_confidence_counterexample :
    detectFiles sampleSln 3
      = [⟨["x.sln"], "nuget", 80, .primary⟩] ∧
    confFormula .primary 0 = 90 ∧ (80 : Nat) ≠ 90 := by
  refine ⟨by decide, by decide, by decide⟩

/-- C5 (amended): registry-scanned candidates follow the claimed
formula (base 0.9/0.7/0.3 at depth 0, `max floor (base − depth·decay)`
below, floors 0.5/0.3/0.1); the .NET project scan instead assigns the
flat confidence 0.9 (0.8 for `.sln`) as a `primary` at any depth; the
formula is monotonically non-increasing in depth and stays between the
type's floor and 1.0; consequently every file returned by `detectFiles`
has a confidence between its type's floor and 1.0. -/
theorem detectFiles_confidence :
    (∀ (t : FsTree) (p : List String) (d : Nat) (f : DetectedFile),
      f ∈ scanDirectory t p d → f.confidence = confFormula f.ftype d) ∧
    (∀ (fuel : Nat) (t : FsTree) (p : List String) (cd md : Nat)
      (f : DetectedFile), f ∈ scanRec fuel t p cd md →
      ∃ d, cd ≤ d ∧ d ≤ md ∧ f.confidence = confFormula f.ftype d) ∧
    (∀ (fuel : Nat) (t : FsTree) (p : List String) (depth md : Nat)
      (f : DetectedFile), f ∈ scanDotNet fuel t p depth md →
      f.ftype = .primary ∧ (f.confidence = 90 ∨ f.confidence = 80)) ∧
    (∀ (ft : FType) (d d' : Nat), d ≤ d' →
      confFormula ft d' ≤ confFormula ft d) ∧
    (∀ (ft : FType) (d : Nat),
      floorOf ft ≤ confFormula ft d ∧ confFormula ft d ≤ 100) ∧
    (∀ (t : FsTree) (md : Nat) (f : DetectedFile), f ∈ detectFiles t md →
      floorOf f.ftype ≤ f.confidence ∧ f.confidence ≤ 100) := by
  refine ⟨scanDirectory_conf, scanRec_conf, scanDotNet_conf,
    confFormula_antitone, confFormula_bounds, ?_⟩
  intro t md f hf
  unfold detectFiles prioritizeFiles at hf
  rw [(List.perm_insertionSort (bestRel 5) _).mem_iff] at hf
  rcases List.mem_append.mp hf with hf | hf
  · by_cases he : (scanDirectory t [] 0).isEmpty = true
    · rw [if_pos he] at hf
      obtain ⟨d, _, _, hd⟩ := scanRec_conf (md + 1) t [] 1 md f hf
      rw [hd]
      exact confFormula_bounds f.ftype d
    · rw [if_neg he] at hf
      have hd := scanDirectory_conf t [] 0 f hf
      rw [hd]
      exact confFormula_bounds f.ftype 0
  · obtain ⟨hp, hc⟩ := scanDotNet_conf (md + 2) t [] 0 md f hf
    rw [hp]
    rcases hc with hc | hc <;> rw [hc] <;> exact ⟨by simp [floorOf], by omega⟩

/-- Witness for the amended C5: the floor/cap fact at a concrete
detected file. -/
theorem detectFiles_confidence_witness :
    floorOf (⟨["package.json"], "npm", 90, .primary⟩ : DetectedFile).ftype
        ≤ (⟨["package.json"], "npm", 90, .primary⟩ : DetectedFile).confidence ∧
    (⟨["package.json"], "npm", 90, .primary⟩ : DetectedFile).confidence ≤ 100 :=
  detectFiles_confidence.2.2.2.2.2 sampleTree 3
    ⟨["package.json"], "npm", 90, .primary⟩ (by decide)

/-! Claim-level results about `getBestFile` (C6, C10). -/

theorem jsCompare_primary_first {tol : Nat} {a b : DetectedFile}
    (ha : a.ftype = .primary) (hb : b.ftype ≠ .primary) :
    jsCompare tol a b = -1 := by
  unfold jsCompare
  rw [if_pos ⟨ha, hb⟩]

theorem jsCompare_primary_second {tol : Nat} {a b : DetectedFile}
    (ha : a.ftype ≠ .primary) (hb : b.ftype = .primary) :
    jsCompare tol a b = 1 := by
  unfold jsCompare
  rw [if_neg (fun h => ha h.1), if_pos ⟨hb, ha⟩]

/-- The head of the list exists and is a `primary` candidate. -/
def headPrimary (l : List DetectedFile) : Prop :=
  ∃ h t, l = h :: t ∧ h.ftype = FType.primary

theorem headPrimary_orderedInsert_left {tol : Nat} {x : DetectedFile}
    (l : List DetectedFile) (hx : x.ftype = .primary) :
    headPrimary (List.orderedInsert (bestRel tol) x l) := by
  cases l with
  | nil => exact ⟨x, [], rfl, hx⟩
  | cons b t =>
    by_cases hr : bestRel tol x b
    · exact ⟨x, b :: t, by simp [List.orderedInsert, if_pos hr], hx⟩
    · have hb : b.ftype = .primary := by
        by_contra hb
        exact hr (by
          show jsCompare tol x b ≤ 0
          rw [jsCompare_primary_first hx hb]
          omega)
      exact ⟨b, List.orderedInsert (bestRel tol) x t,
        by simp [List.orderedInsert, if_neg hr], hb⟩

theorem headPrimary_orderedInsert_right {tol : Nat} {x : DetectedFile}
    {l : List DetectedFile} (hl : headPrimary l) :
    headPrimary (List.orderedInsert (bestRel tol) x l) := by
  obtain ⟨h, t, rfl, hh⟩ := hl
  by_cases hx : x.ftype = .primary
  · exact headPrimary_orderedInsert_left _ hx
  · have hr : ¬ bestRel tol x h := by
      show ¬ jsCompare tol x h ≤ 0
      rw [jsCompare_primary_second hx hh]
      omega
    exact ⟨h, List.orderedInsert (bestRel tol) x t,
      by simp [List.orderedInsert, if_neg hr], hh⟩

theorem headPrimary_insertionSort {tol : Nat} :
    ∀ l : List DetectedFile, (∃ f ∈ l, f.ftype = .primary) →
      headPrimary (List.insertionSort (bestRel tol) l) := by
  intro l
  induction l with
  | nil => intro h; exact absurd h (by simp)
  | cons x xs ih =>
    intro h
    show headPrimary
      (List.orderedInsert (bestRel tol) x (List.insertionSort (bestRel tol) xs))
    by_cases hx : x.ftype = .primary
    · exact headPrimary_orderedInsert_left _ hx
    · obtain ⟨f, hf, hfp⟩ := h
      rcases List.mem_cons.mp hf with rfl | hf
      · exact absurd hfp hx
      · exact headPrimary_orderedInsert_right (ih ⟨f, hf, hfp⟩)

theorem getBestFile_none_of_ne {files : List DetectedFile}
    (h : files.length ≠ 0) :
    getBestFile files none
      = ((List.insertionSort (bestRel 10) files).head?,
         List.insertionSort (bestRel 10) files) := by
  unfold getBestFile
  rw [if_neg h]
  rfl

/-- C6: whenever the candidate list holds at least one `primary` file
and at least one `lockfile`/`config` file, `getBestFile` (no hint)
returns a `primary` file, whatever the confidences are. -/
theorem getBestFile_prefers_primary :
    ∀ files : List DetectedFile,
      (∃ f ∈ files, f.ftype = FType.primary) →
      (∃ g ∈ files, g.ftype ≠ FType.primary) →
      ∃ r, (getBestFile files none).1 = some r ∧ r.ftype = FType.primary := by
  intro files hp hnp
  have hne : files.length ≠ 0 := by
    obtain ⟨f, hf, _⟩ := hp
    cases files with
    | nil => exact absurd hf (by simp)
    | cons a l => simp
  rw [getBestFile_none_of_ne hne]
  obtain ⟨h, t, hs, hh⟩ := @headPrimary_insertionSort 10 files hp
  refine ⟨h, ?_, hh⟩
  show (List.insertionSort (bestRel 10) files).head? = some h
  rw [hs]
  rfl

/-- Witness for C6: the low-confidence primary still wins over the
high-confidence lockfile. -/
theorem getBestFile_prefers_primary_witness :
    ∃ r, (getBestFile
        [⟨["a", "Gemfile.lock"], "rubygems", 70, .lockfile⟩,
         ⟨["package.json"], "npm", 10, .primary⟩] none).1 = some r ∧
      r.ftype = FType.primary :=
  getBestFile_prefers_primary
    [⟨["a", "Gemfile.lock"], "rubygems", 70, .lockfile⟩,
     ⟨["package.json"], "npm", 10, .primary⟩]
    ⟨⟨["package.json"], "npm", 10, .primary⟩, by decide, by decide⟩
    ⟨⟨["a", "Gemfile.lock"], "rubygems", 70, .lockfile⟩, by decide, by decide⟩

theorem getBestFile_some_eq {files : List DetectedFile} {e : String}
    (h : files.length ≠ 0) (he : e ≠ "") :
    getBestFile files (some e) =
      (if (files.filter (fun f => f.ecosystem = e)).length = 0 then
        ((List.insertionSort (bestRel 10) files).head?,
         List.insertionSort (bestRel 10) files)
      else
        ((List.insertionSort (bestRel 10)
            (files.filter (fun f => f.ecosystem = e))).head?,
         files)) := by
  unfold getBestFile
  rw [if_neg h]
  simp [he]

theorem getBestFile_some_empty_hint {files : List DetectedFile}
    (h : files.length ≠ 0) :
    getBestFile files (some "")
      = ((List.insertionSort (bestRel 10) files).head?,
         List.insertionSort (bestRel 10) files) := by
  unfold getBestFile
  rw [if_neg h]
  rfl

theorem sort_head_some_of_ne {c : List DetectedFile} (h : c ≠ []) :
    ∃ r, (List.insertionSort (bestRel 10) c).head? = some r ∧ r ∈ c := by
  have hp := List.perm_insertionSort (bestRel 10) c
  cases hs : List.insertionSort (bestRel 10) c with
  | nil =>
    rw [hs] at hp
    exact absurd hp.symm.eq_nil h
  | cons r t =>
    refine ⟨r, rfl, hp.subset ?_⟩
    rw [hs]
    simp

/-- Case analysis of `getBestFile` on a non-empty input: the result is
the head of the sort of some non-empty subset `c` of the input, and the
final state of the caller's array is either untouched or the sorted
input. -/
theorem getBestFile_spec (files : List DetectedFile) (eco? : Option String)
    (h : files ≠ []) :
    ∃ c, c ≠ [] ∧ (∀ x ∈ c, x ∈ files) ∧
      (getBestFile files eco?).1 = (List.insertionSort (bestRel 10) c).head? ∧
      ((getBestFile files eco?).2 = files ∨
       (getBestFile files eco?).2 = List.insertionSort (bestRel 10) files) := by
  have hlen : files.length ≠ 0 := by
    cases files with
    | nil => exact absurd rfl h
    | cons a l => simp
  match eco? with
  | none =>
    refine ⟨files, h, fun x hx => hx, ?_, ?_⟩
    · rw [getBestFile_none_of_ne hlen]
    · rw [getBestFile_none_of_ne hlen]
      right
      rfl
  | some e =>
    by_cases he : e = ""
    · subst he
      refine ⟨files, h, fun x hx => hx, ?_, ?_⟩
      · rw [getBestFile_some_empty_hint hlen]
      · rw [getBestFile_some_empty_hint hlen]
        right
        rfl
    · rw [getBestFile_some_eq hlen he]
      by_cases hfl : (files.filter (fun f => f.ecosystem = e)).length = 0
      · rw [if_pos hfl]
        exact ⟨files, h, fun x hx => hx, rfl, Or.inr rfl⟩
      · rw [if_neg hfl]
        refine ⟨files.filter (fun f => f.ecosystem = e), ?_,
          fun x hx => List.mem_of_mem_filter hx, rfl, Or.inl rfl⟩
        intro hnil
        rw [hnil] at hfl
        exact hfl rfl

/-- C10: `getBestFile` returns `none` exactly on the empty list; on a
non-empty list it returns a member of the list (of the hint-filtered
subset when that is non-empty); the caller's array afterwards is always
a permutation of the original, and it is returned untouched when a
non-empty hint filter was sorted instead. -/
theorem getBestFile_frame :
    (∀ (files : List DetectedFile) (eco? : Option String),
      ((getBestFile files eco?).1 = none ↔ files = [])) ∧
    (∀ (files : List DetectedFile) (eco? : Option String), files ≠ [] →
      ∃ r, (getBestFile files eco?).1 = some r ∧ r ∈ files) ∧
    (∀ (files : List DetectedFile) (eco? : Option String),
      ((getBestFile files eco?).2).Perm files) ∧
    (∀ (files : List DetectedFile) (e : String), e ≠ "" →
      files.filter (fun f => f.ecosystem = e) ≠ [] →
      (getBestFile files (some e)).2 = files) := by
  have hmem : ∀ (files : List DetectedFile) (eco? : Option String),
      files ≠ [] →
      ∃ r, (getBestFile files eco?).1 = some r ∧ r ∈ files := by
    intro files eco? h
    obtain ⟨c, hc, hsub, hfst, _⟩ := getBestFile_spec files eco? h
    obtain ⟨r, hr, hrc⟩ := sort_head_some_of_ne hc
    exact ⟨r, by rw [hfst, hr], hsub r hrc⟩
  refine ⟨?_, hmem, ?_, ?_⟩
  · intro files eco?
    constructor
    · intro hnone
      by_contra h
      obtain ⟨r, hr, _⟩ := hmem files eco? h
      rw [hr] at hnone
      exact Option.noConfusion hnone
    · intro h
      subst h
      rfl
  · intro files eco?
    by_cases h : files = []
    · subst h
      show List.Perm ([] : List DetectedFile) []
      exact List.Perm.refl _
    · obtain ⟨c, _, _, _, hsnd⟩ := getBestFile_spec files eco? h
      rcases hsnd with hsnd | hsnd <;> rw [hsnd]
      all_goals
        first
          | exact List.Perm.refl _
          | exact List.perm_insertionSort _ _
  · intro files e he hfl
    have h : files ≠ [] := by
      intro h
      subst h
      exact hfl rfl
    have hlen : files.length ≠ 0 := by
      cases files with
      | nil => exact absurd rfl h
      | cons a l => simp
    rw [getBestFile_some_eq hlen he,
      if_neg (fun hz => hfl (List.length_eq_zero.mp hz))]

/-- Witness for C10 at a concrete non-empty list. -/
theorem getBestFile_frame_witness :
    ∃ r, (getBestFile [⟨["go.mod"], "go", 90, .primary⟩] none).1 = some r ∧
      r ∈ [(⟨["go.mod"], "go", 90, .primary⟩ : DetectedFile)] :=
  getBestFile_frame.2.1 [⟨["go.mod"], "go", 90, .primary⟩] none (by decide)

end Vulnify
